import Mathlib

/-!
# Character traits for 16-bit and 32-bit code units

A shallow embedding of `tools/char_traits_patch.h`, which specialises
`std::char_traits` for `unsigned short` and `unsigned int`.

Modelling conventions.

* Code units and `int_type` values are natural numbers; a conversion to an
  unsigned type of `w` bits is written with an explicit `% 2 ^ w`.
* A pointer that is only read through (`const char_type* s`) is modelled by its
  indexing function `i ↦ s[i]`; the pointer `s + i` returned by `find` is
  modelled by the offset `i`, and `nullptr` by `none`.
* The operations that write take a byte-addressed memory and byte addresses, and
  return the memory after the call together with the returned pointer.  A unit
  occupies `sizeof(char_type)` consecutive bytes, least significant byte first;
  `p[i]` is at address `p + sizeof(char_type) * i`.
* `size_t` has 64 bits.  The product `n * sizeof(char_type)` in `move` and
  `copy` is taken modulo `2 ^ 64`; it wraps only for an `n` that no range lying
  in memory has.
* A `for (size_t i = 0; i < n; ++i)` loop is a recursion on the pair
  `(i, n - i)`: the second component counts the iterations still to run, so
  `i < n` holds exactly when it is a successor.  Since `i < n` before every
  `++i`, the increment never wraps.
-/

namespace CharTraitsPatch

/-! ## Environment of the header -/

/-- The constant `EOF`: the header defines it as `(-1)` when the C library has
not, and the C library defines it as `-1` too. -/
def EOF : Int := -1

/-- Number of value bits of `size_t`. -/
def SIZE_BITS : Nat := 64

/-- A read-only buffer, seen through its pointer: `s i` is the unit `s[i]`. -/
abbrev Buf := Nat → Nat

/-- Byte-addressed memory: the byte stored at each address. -/
abbrev Mem := Nat → Nat

/-- Conversion of an integer to an unsigned type of `w` bits, as done by
`static_cast`: the value modulo `2 ^ w`. -/
def cast_unsigned (w : Nat) (x : Int) : Nat := (x % (2 : Int) ^ w).toNat

/-- Memory after one byte has been written at address `p`. -/
def set_byte (mem : Mem) (p b : Nat) : Mem := fun a => if a = p then b else mem a

/-- The `count` bytes stored from address `p` on. -/
def read_bytes (mem : Mem) : Nat → Nat → List Nat
  | _, 0 => []
  | p, count + 1 => mem p :: read_bytes mem (p + 1) count

/-- Memory after the bytes of a list have been written from address `p` on. -/
def write_bytes : Mem → Nat → List Nat → Mem
  | mem, _, [] => mem
  | mem, p, b :: bs => write_bytes (set_byte mem p b) (p + 1) bs

/-- Modelled from the spec: the C library routine `memmove`, which the header
calls and which is not part of the repository.  "copies n units from src to dest
with overlap-safe semantics (as if via a temporary), returns dest": the `count`
bytes at `src` are first read into a temporary, the temporary is then written
at `dest`. -/
def memmove (mem : Mem) (dest src count : Nat) : Mem × Nat :=
  (write_bytes mem dest (read_bytes mem src count), dest)

/-- Byte-by-byte forward copy, the loop of `memcpy`: `i` is the next offset and
the last argument the number of bytes still to copy. -/
def memcpy_loop (dest src : Nat) : Mem → Nat → Nat → Mem
  | mem, _, 0 => mem
  | mem, i, todo + 1 =>
    memcpy_loop dest src (set_byte mem (dest + i) (mem (src + i))) (i + 1) todo

/-- Modelled from the spec: the C library routine `memcpy`, which the header
calls and which is not part of the repository.  "copies n units from src to
dest, returns dest (overlap not supported — undefined if buffers overlap)":
`none` stands for the undefined behaviour on overlapping ranges, otherwise the
bytes are copied in ascending order. -/
def memcpy (mem : Mem) (dest src count : Nat) : Option (Mem × Nat) :=
  if dest + count ≤ src ∨ src + count ≤ dest then
    some (memcpy_loop dest src mem 0 count, dest)
  else none

/-- Buffer whose first units are those of a list (zero afterwards); used to
write concrete inputs. -/
def buf_of (l : List Nat) : Buf := fun i => l.getD i 0

/-! ## `char_traits<unsigned short>` -/

namespace char_traits_unsigned_short

/-- Number of value bits of `char_type = unsigned short`. -/
def CHAR_BITS : Nat := 16

/-- Number of value bits of `int_type = std::uint32_t`. -/
def INT_BITS : Nat := 32

/-- The value of `sizeof(char_type)`. -/
def sizeof_char_type : Nat := 2

/-- Source: `eq(a, b) { return a == b; }`. -/
def eq (a b : Nat) : Bool := a == b

/-- Source: `lt(a, b) { return a < b; }`. -/
def lt (a b : Nat) : Bool := decide (a < b)

/-- Loop of `compare`, from index `i` with `todo = n - i` iterations left. -/
def compare_loop (s1 s2 : Buf) : Nat → Nat → Int
  | _, 0 => 0
  | i, todo + 1 =>
    if lt (s1 i) (s2 i) then -1
    else if lt (s2 i) (s1 i) then 1
    else compare_loop s1 s2 (i + 1) todo

/-- Source: `compare(s1, s2, n)`. -/
def compare (s1 s2 : Buf) (n : Nat) : Int := compare_loop s1 s2 0 n

/-- Loop of `length`: `while (!eq(s[i], char_type())) ++i; return i;`, where
`char_type()` is the zero unit.  The loop has no bound of its own, so the model
takes one: `none` means that the bound on the number of evaluations of the loop
condition was reached.  The counter stays at or below the index of the first
zero unit, so `++i` does not wrap. -/
def length_loop (s : Buf) : Nat → Nat → Option Nat
  | _, 0 => none
  | i, fuel + 1 => if !eq (s i) 0 then length_loop s (i + 1) fuel else some i

/-- Source: `length(s)`, run for at most `fuel` evaluations of the loop
condition. -/
def length (s : Buf) (fuel : Nat) : Option Nat := length_loop s 0 fuel

/-- Loop of `find`, from index `i` with `todo = n - i` iterations left. -/
def find_loop (s : Buf) (a : Nat) : Nat → Nat → Option Nat
  | _, 0 => none
  | i, todo + 1 => if eq (s i) a then some i else find_loop s a (i + 1) todo

/-- Source: `find(s, n, a)`; `some i` is the pointer `s + i`, `none` is
`nullptr`. -/
def find (s : Buf) (n a : Nat) : Option Nat := find_loop s a 0 n

/-- Address of `p[i]` for a `char_type*` with byte address `p`. -/
def index (p i : Nat) : Nat := p + sizeof_char_type * i

/-- The unit stored at byte address `p` (little-endian object representation). -/
def load (mem : Mem) (p : Nat) : Nat := mem p + 256 * mem (p + 1)

/-- Memory after the unit `v` has been stored at byte address `p`. -/
def store (mem : Mem) (p v : Nat) : Mem :=
  set_byte (set_byte mem p (v % 256)) (p + 1) (v / 256 % 256)

/-- Source: `move(dest, src, n)`, a call of `memmove` with `n * sizeof(char_type)`
computed in `size_t`. -/
def move (mem : Mem) (dest src n : Nat) : Mem × Nat :=
  memmove mem dest src (n * sizeof_char_type % 2 ^ SIZE_BITS)

/-- Source: `copy(dest, src, n)`, a call of `memcpy` with `n * sizeof(char_type)`
computed in `size_t`. -/
def copy (mem : Mem) (dest src n : Nat) : Option (Mem × Nat) :=
  memcpy mem dest src (n * sizeof_char_type % 2 ^ SIZE_BITS)

/-- Loop of the range `assign`: `dest[i] = value` from index `i` with
`todo = n - i` iterations left. -/
def assign_loop (dest value : Nat) : Mem → Nat → Nat → Mem
  | mem, _, 0 => mem
  | mem, i, todo + 1 => assign_loop dest value (store mem (index dest i) value) (i + 1) todo

/-- Source: `assign(dest, n, value)`. -/
def assign (mem : Mem) (dest n value : Nat) : Mem × Nat :=
  (assign_loop dest value mem 0 n, dest)

/-- Source: `to_int_type(c) { return static_cast<int_type>(c); }`. -/
def to_int_type (c : Nat) : Nat := c % 2 ^ INT_BITS

/-- Source: `to_char_type(c) { return static_cast<char_type>(c); }`. -/
def to_char_type (c : Nat) : Nat := c % 2 ^ CHAR_BITS

/-- Source: `eq_int_type(c1, c2) { return c1 == c2; }`. -/
def eq_int_type (c1 c2 : Nat) : Bool := c1 == c2

/-- Source: `eof() { return static_cast<int_type>(EOF); }`. -/
def eof : Nat := cast_unsigned INT_BITS EOF

/-- Source: `not_eof(c) { return eq_int_type(c, eof()) ? 0 : c; }`. -/
def not_eof (c : Nat) : Nat := if eq_int_type c eof then 0 else c

end char_traits_unsigned_short

/-! ## `char_traits<unsigned int>` -/

namespace char_traits_unsigned_int

/-- Number of value bits of `char_type = unsigned int`. -/
def CHAR_BITS : Nat := 32

/-- Number of value bits of `int_type = std::uint32_t`. -/
def INT_BITS : Nat := 32

/-- The value of `sizeof(char_type)`. -/
def sizeof_char_type : Nat := 4

/-- Source: `eq(a, b) { return a == b; }`. -/
def eq (a b : Nat) : Bool := a == b

/-- Source: `lt(a, b) { return a < b; }`. -/
def lt (a b : Nat) : Bool := decide (a < b)

/-- Loop of `compare`, from index `i` with `todo = n - i` iterations left. -/
def compare_loop (s1 s2 : Buf) : Nat → Nat → Int
  | _, 0 => 0
  | i, todo + 1 =>
    if lt (s1 i) (s2 i) then -1
    else if lt (s2 i) (s1 i) then 1
    else compare_loop s1 s2 (i + 1) todo

/-- Source: `compare(s1, s2, n)`. -/
def compare (s1 s2 : Buf) (n : Nat) : Int := compare_loop s1 s2 0 n

/-- Loop of `length`: `while (!eq(s[i], char_type())) ++i; return i;`, where
`char_type()` is the zero unit.  The loop has no bound of its own, so the model
takes one: `none` means that the bound on the number of evaluations of the loop
condition was reached.  The counter stays at or below the index of the first
zero unit, so `++i` does not wrap. -/
def length_loop (s : Buf) : Nat → Nat → Option Nat
  | _, 0 => none
  | i, fuel + 1 => if !eq (s i) 0 then length_loop s (i + 1) fuel else some i

/-- Source: `length(s)`, run for at most `fuel` evaluations of the loop
condition. -/
def length (s : Buf) (fuel : Nat) : Option Nat := length_loop s 0 fuel

/-- Loop of `find`, from index `i` with `todo = n - i` iterations left. -/
def find_loop (s : Buf) (a : Nat) : Nat → Nat → Option Nat
  | _, 0 => none
  | i, todo + 1 => if eq (s i) a then some i else find_loop s a (i + 1) todo

/-- Source: `find(s, n, a)`; `some i` is the pointer `s + i`, `none` is
`nullptr`. -/
def find (s : Buf) (n a : Nat) : Option Nat := find_loop s a 0 n

/-- Address of `p[i]` for a `char_type*` with byte address `p`. -/
def index (p i : Nat) : Nat := p + sizeof_char_type * i

/-- The unit stored at byte address `p` (little-endian object representation). -/
def load (mem : Mem) (p : Nat) : Nat :=
  mem p + 256 * mem (p + 1) + 65536 * mem (p + 2) + 16777216 * mem (p + 3)

/-- Memory after the unit `v` has been stored at byte address `p`. -/
def store (mem : Mem) (p v : Nat) : Mem :=
  set_byte (set_byte (set_byte (set_byte mem p (v % 256)) (p + 1) (v / 256 % 256))
    (p + 2) (v / 65536 % 256)) (p + 3) (v / 16777216 % 256)

/-- Source: `move(dest, src, n)`, a call of `memmove` with `n * sizeof(char_type)`
computed in `size_t`. -/
def move (mem : Mem) (dest src n : Nat) : Mem × Nat :=
  memmove mem dest src (n * sizeof_char_type % 2 ^ SIZE_BITS)

/-- Source: `copy(dest, src, n)`, a call of `memcpy` with `n * sizeof(char_type)`
computed in `size_t`. -/
def copy (mem : Mem) (dest src n : Nat) : Option (Mem × Nat) :=
  memcpy mem dest src (n * sizeof_char_type % 2 ^ SIZE_BITS)

/-- Loop of the range `assign`: `dest[i] = value` from index `i` with
`todo = n - i` iterations left. -/
def assign_loop (dest value : Nat) : Mem → Nat → Nat → Mem
  | mem, _, 0 => mem
  | mem, i, todo + 1 => assign_loop dest value (store mem (index dest i) value) (i + 1) todo

/-- Source: `assign(dest, n, value)`. -/
def assign (mem : Mem) (dest n value : Nat) : Mem × Nat :=
  (assign_loop dest value mem 0 n, dest)

/-- Source: `to_int_type(c) { return c; }`. -/
def to_int_type (c : Nat) : Nat := c

/-- Source: `to_char_type(c) { return c; }`. -/
def to_char_type (c : Nat) : Nat := c

/-- Source: `eq_int_type(c1, c2) { return c1 == c2; }`. -/
def eq_int_type (c1 c2 : Nat) : Bool := c1 == c2

/-- Source: `eof() { return static_cast<int_type>(EOF); }`. -/
def eof : Nat := cast_unsigned INT_BITS EOF

/-- Source: `not_eof(c) { return eq_int_type(c, eof()) ? 0 : c; }`. -/
def not_eof (c : Nat) : Nat := if eq_int_type c eof then 0 else c

end char_traits_unsigned_int

/-! ## The two specialisations run the same loops -/

/-- The `compare` loops of the two specialisations compute the same function. -/
theorem compare_loop_int_eq_short (s1 s2 : Buf) (todo : Nat) : ∀ i,
    char_traits_unsigned_int.compare_loop s1 s2 i todo
      = char_traits_unsigned_short.compare_loop s1 s2 i todo := by
  induction todo with
  | zero => intro i; rfl
  | succ t ih =>
    intro i
    simp only [char_traits_unsigned_int.compare_loop, char_traits_unsigned_short.compare_loop,
      char_traits_unsigned_int.lt, char_traits_unsigned_short.lt, ih]

/-- The `length` loops of the two specialisations compute the same function. -/
theorem length_loop_int_eq_short (s : Buf) (fuel : Nat) : ∀ i,
    char_traits_unsigned_int.length_loop s i fuel
      = char_traits_unsigned_short.length_loop s i fuel := by
  induction fuel with
  | zero => intro i; rfl
  | succ t ih =>
    intro i
    simp only [char_traits_unsigned_int.length_loop, char_traits_unsigned_short.length_loop,
      char_traits_unsigned_int.eq, char_traits_unsigned_short.eq, ih]

/-- The `find` loops of the two specialisations compute the same function. -/
theorem find_loop_int_eq_short (s : Buf) (a : Nat) (todo : Nat) : ∀ i,
    char_traits_unsigned_int.find_loop s a i todo
      = char_traits_unsigned_short.find_loop s a i todo := by
  induction todo with
  | zero => intro i; rfl
  | succ t ih =>
    intro i
    simp only [char_traits_unsigned_int.find_loop, char_traits_unsigned_short.find_loop,
      char_traits_unsigned_int.eq, char_traits_unsigned_short.eq, ih]

/-! ## Loop lemmas of the 16-bit specialisation -/

/-- While the two buffers agree on every unit the loop visits, the loop runs
through and yields 0. -/
theorem compare_loop_agree (s1 s2 : Buf) (todo : Nat) : ∀ i,
    (∀ j, i ≤ j → j < i + todo → s1 j = s2 j) →
    char_traits_unsigned_short.compare_loop s1 s2 i todo = 0 := by
  induction todo with
  | zero => intro i _; rfl
  | succ t ih =>
    intro i h
    have hi : s1 i = s2 i := h i (le_refl i) (by omega)
    have hrest : char_traits_unsigned_short.compare_loop s1 s2 (i + 1) t = 0 :=
      ih (i + 1) (fun j h1 h2 => h j (by omega) (by omega))
    simp [char_traits_unsigned_short.compare_loop, char_traits_unsigned_short.lt, hi, hrest]

/-- The first position at which the buffers differ decides the result. -/
theorem compare_loop_first_diff (s1 s2 : Buf) (d : Nat) : ∀ i todo, d < todo →
    (∀ j, i ≤ j → j < i + d → s1 j = s2 j) → s1 (i + d) < s2 (i + d) →
    char_traits_unsigned_short.compare_loop s1 s2 i todo = -1 ∧
    char_traits_unsigned_short.compare_loop s2 s1 i todo = 1 := by
  induction d with
  | zero =>
    intro i todo hd _ hlt
    obtain ⟨t, rfl⟩ : ∃ t, todo = t + 1 := ⟨todo - 1, by omega⟩
    have hlt0 : s1 i < s2 i := by simpa using hlt
    have hnot : ¬ s2 i < s1 i := by omega
    simp [char_traits_unsigned_short.compare_loop, char_traits_unsigned_short.lt, hlt0, hnot]
  | succ e ih =>
    intro i todo hd hagree hlt
    obtain ⟨t, rfl⟩ : ∃ t, todo = t + 1 := ⟨todo - 1, by omega⟩
    have hi : s1 i = s2 i := hagree i (le_refl i) (by omega)
    have hrest := ih (i + 1) t (by omega) (fun j h1 h2 => hagree j (by omega) (by omega))
      (by have : i + 1 + e = i + (e + 1) := by omega
          rw [this]; exact hlt)
    simp [char_traits_unsigned_short.compare_loop, char_traits_unsigned_short.lt, hi, hrest.1,
      hrest.2]

/-- The scan of `length` stops at the first zero unit, given enough fuel. -/
theorem length_loop_first_zero (s : Buf) (d : Nat) : ∀ i fuel, d < fuel →
    (∀ j, i ≤ j → j < i + d → s j ≠ 0) → s (i + d) = 0 →
    char_traits_unsigned_short.length_loop s i fuel = some (i + d) := by
  induction d with
  | zero =>
    intro i fuel hd _ hz
    obtain ⟨t, rfl⟩ : ∃ t, fuel = t + 1 := ⟨fuel - 1, by omega⟩
    have hz0 : s i = 0 := by simpa using hz
    simp [char_traits_unsigned_short.length_loop, char_traits_unsigned_short.eq, hz0]
  | succ e ih =>
    intro i fuel hd hnz hz
    obtain ⟨t, rfl⟩ : ∃ t, fuel = t + 1 := ⟨fuel - 1, by omega⟩
    have hi : s i ≠ 0 := hnz i (le_refl i) (by omega)
    have hrest := ih (i + 1) t (by omega) (fun j h1 h2 => hnz j (by omega) (by omega))
      (by have : i + 1 + e = i + (e + 1) := by omega
          rw [this]; exact hz)
    have : i + 1 + e = i + (e + 1) := by omega
    simp [char_traits_unsigned_short.length_loop, char_traits_unsigned_short.eq, hi, hrest, this]

/-- The scan of `find` stops at the first unit equal to the target. -/
theorem find_loop_first (s : Buf) (a : Nat) (d : Nat) : ∀ i todo, d < todo →
    (∀ j, i ≤ j → j < i + d → s j ≠ a) → s (i + d) = a →
    char_traits_unsigned_short.find_loop s a i todo = some (i + d) := by
  induction d with
  | zero =>
    intro i todo hd _ hz
    obtain ⟨t, rfl⟩ : ∃ t, todo = t + 1 := ⟨todo - 1, by omega⟩
    have hz0 : s i = a := by simpa using hz
    simp [char_traits_unsigned_short.find_loop, char_traits_unsigned_short.eq, hz0]
  | succ e ih =>
    intro i todo hd hne hz
    obtain ⟨t, rfl⟩ : ∃ t, todo = t + 1 := ⟨todo - 1, by omega⟩
    have hi : s i ≠ a := hne i (le_refl i) (by omega)
    have hrest := ih (i + 1) t (by omega) (fun j h1 h2 => hne j (by omega) (by omega))
      (by have : i + 1 + e = i + (e + 1) := by omega
          rw [this]; exact hz)
    have : i + 1 + e = i + (e + 1) := by omega
    simp [char_traits_unsigned_short.find_loop, char_traits_unsigned_short.eq, hi, hrest, this]

/-- Without an occurrence of the target among the units it visits, the scan of
`find` ends with the null pointer. -/
theorem find_loop_absent (s : Buf) (a : Nat) (todo : Nat) : ∀ i,
    (∀ j, i ≤ j → j < i + todo → s j ≠ a) →
    char_traits_unsigned_short.find_loop s a i todo = none := by
  induction todo with
  | zero => intro i _; rfl
  | succ t ih =>
    intro i h
    have hi : s i ≠ a := h i (le_refl i) (by omega)
    have hrest := ih (i + 1) (fun j h1 h2 => h j (by omega) (by omega))
    simp [char_traits_unsigned_short.find_loop, char_traits_unsigned_short.eq, hi, hrest]

/-- The `compare` loop reads only the units it visits: on buffers that agree
there it yields the same result. -/
theorem compare_loop_congr (s1 s2 t1 t2 : Buf) (todo : Nat) : ∀ i,
    (∀ j, i ≤ j → j < i + todo → s1 j = t1 j) →
    (∀ j, i ≤ j → j < i + todo → s2 j = t2 j) →
    char_traits_unsigned_short.compare_loop s1 s2 i todo
      = char_traits_unsigned_short.compare_loop t1 t2 i todo := by
  induction todo with
  | zero => intro i _ _; rfl
  | succ t ih =>
    intro i h1 h2
    have e1 : s1 i = t1 i := h1 i (le_refl i) (by omega)
    have e2 : s2 i = t2 i := h2 i (le_refl i) (by omega)
    have hrest := ih (i + 1) (fun j a b => h1 j (by omega) (by omega))
      (fun j a b => h2 j (by omega) (by omega))
    simp only [char_traits_unsigned_short.compare_loop, e1, e2, hrest]

/-- The `find` loop reads only the units it visits: on buffers that agree there
it yields the same result. -/
theorem find_loop_congr (s t : Buf) (a : Nat) (todo : Nat) : ∀ i,
    (∀ j, i ≤ j → j < i + todo → s j = t j) →
    char_traits_unsigned_short.find_loop s a i todo
      = char_traits_unsigned_short.find_loop t a i todo := by
  induction todo with
  | zero => intro i _; rfl
  | succ u ih =>
    intro i h
    have e : s i = t i := h i (le_refl i) (by omega)
    have hrest := ih (i + 1) (fun j a b => h j (by omega) (by omega))
    simp only [char_traits_unsigned_short.find_loop, e, hrest]

/-- The `compare` loop yields -1, 0 or 1. -/
theorem compare_loop_values (s1 s2 : Buf) (todo : Nat) : ∀ i,
    char_traits_unsigned_short.compare_loop s1 s2 i todo = -1 ∨
    char_traits_unsigned_short.compare_loop s1 s2 i todo = 0 ∨
    char_traits_unsigned_short.compare_loop s1 s2 i todo = 1 := by
  induction todo with
  | zero => intro i; exact Or.inr (Or.inl rfl)
  | succ t ih =>
    intro i
    simp only [char_traits_unsigned_short.compare_loop]
    split_ifs
    · exact Or.inl rfl
    · exact Or.inr (Or.inr rfl)
    · exact ih (i + 1)

/-- The `compare` loop yields 0 exactly when the buffers agree on every unit it
visits. -/
theorem compare_loop_eq_zero_iff (s1 s2 : Buf) (todo : Nat) : ∀ i,
    char_traits_unsigned_short.compare_loop s1 s2 i todo = 0 ↔
      ∀ j, i ≤ j → j < i + todo → s1 j = s2 j := by
  induction todo with
  | zero =>
    intro i
    constructor
    · intro _ j h1 h2; omega
    · intro _; rfl
  | succ t ih =>
    intro i
    simp only [char_traits_unsigned_short.compare_loop, char_traits_unsigned_short.lt]
    by_cases h1 : s1 i < s2 i
    · simp only [h1, decide_True, if_true]
      constructor
      · intro h; exact absurd h (by decide)
      · intro h; have := h i (le_refl i) (by omega); omega
    · by_cases h2 : s2 i < s1 i
      · simp only [h1, h2, decide_True, decide_False, if_true, if_false, Bool.false_eq_true]
        constructor
        · intro h; exact absurd h (by decide)
        · intro h; have := h i (le_refl i) (by omega); omega
      · simp only [h1, h2, decide_False, if_false, Bool.false_eq_true, ih (i + 1)]
        constructor
        · intro h j hj1 hj2
          by_cases hji : j = i
          · subst hji; omega
          · exact h j (by omega) (by omega)
        · intro h j hj1 hj2
          exact h j (by omega) (by omega)

/-- Swapping the two buffers negates the result of the `compare` loop. -/
theorem compare_loop_swap (s1 s2 : Buf) (todo : Nat) : ∀ i,
    char_traits_unsigned_short.compare_loop s2 s1 i todo
      = - char_traits_unsigned_short.compare_loop s1 s2 i todo := by
  induction todo with
  | zero => intro i; rfl
  | succ t ih =>
    intro i
    simp only [char_traits_unsigned_short.compare_loop, char_traits_unsigned_short.lt]
    by_cases h1 : s1 i < s2 i
    · have h2 : ¬ s2 i < s1 i := by omega
      simp [h1, h2]
    · by_cases h2 : s2 i < s1 i
      · simp [h1, h2]
      · simp [h1, h2, ih (i + 1)]

/-! ## The library routines -/

/-- Reading `count` bytes gives `count` bytes. -/
theorem read_bytes_length (mem : Mem) (count : Nat) : ∀ p,
    (read_bytes mem p count).length = count := by
  induction count with
  | zero => intro p; rfl
  | succ c ih => intro p; simp [read_bytes, ih]

/-- The `k`-th byte read from address `p` is the byte at `p + k`. -/
theorem read_bytes_getD (mem : Mem) (count : Nat) : ∀ p k, k < count →
    (read_bytes mem p count).getD k 0 = mem (p + k) := by
  induction count with
  | zero => intro p k hk; omega
  | succ c ih =>
    intro p k hk
    cases k with
    | zero => simp [read_bytes]
    | succ k =>
      have h := ih (p + 1) k (by omega)
      have e : p + 1 + k = p + (k + 1) := by omega
      simp only [read_bytes, List.getD_cons_succ, h, e]

/-- Memory after a list of bytes has been written: the list inside the written
range, the old contents outside. -/
theorem write_bytes_apply (l : List Nat) : ∀ (mem : Mem) (p a : Nat),
    write_bytes mem p l a = if p ≤ a ∧ a < p + l.length then l.getD (a - p) 0 else mem a := by
  induction l with
  | nil =>
    intro mem p a
    have h : ¬ (p ≤ a ∧ a < p + ([] : List Nat).length) := by simp
    simp only [write_bytes, h, if_false]
  | cons b bs ih =>
    intro mem p a
    simp only [write_bytes, ih, List.length_cons, set_byte]
    by_cases h1 : a = p
    · subst h1
      simp
    · by_cases h2 : p + 1 ≤ a ∧ a < p + 1 + bs.length
      · have h3 : p ≤ a ∧ a < p + (bs.length + 1) := by omega
        obtain ⟨k, hk⟩ : ∃ k, a - p = k + 1 := ⟨a - p - 1, by omega⟩
        have h4 : a - (p + 1) = k := by omega
        simp [h2, h3, hk, h4]
      · have h3 : ¬ (p ≤ a ∧ a < p + (bs.length + 1)) := by omega
        simp [h1, h2, h3]

/-- Memory after `memmove`: inside the destination range the old contents of
the source range, the old contents elsewhere. -/
theorem memmove_apply (mem : Mem) (dest src count a : Nat) :
    (memmove mem dest src count).1 a
      = if dest ≤ a ∧ a < dest + count then mem (src + (a - dest)) else mem a := by
  simp only [memmove, write_bytes_apply, read_bytes_length]
  by_cases h : dest ≤ a ∧ a < dest + count
  · simp only [h, and_self, if_true]
    exact read_bytes_getD mem count src (a - dest) (by omega)
  · simp only [h, if_false]

/-- Memory after the copy loop of `memcpy` on ranges that do not overlap: from
offset `i` on, the destination holds the source bytes; all else is unchanged. -/
theorem memcpy_loop_apply (dest src count : Nat)
    (hdis : dest + count ≤ src ∨ src + count ≤ dest) (todo : Nat) :
    ∀ (mem : Mem) (i a : Nat), i + todo = count →
      memcpy_loop dest src mem i todo a
        = if dest + i ≤ a ∧ a < dest + count then mem (src + (a - dest)) else mem a := by
  induction todo with
  | zero =>
    intro mem i a hi
    have : ¬ (dest + i ≤ a ∧ a < dest + count) := by omega
    simp [memcpy_loop, this]
  | succ t ih =>
    intro mem i a hi
    rw [memcpy_loop, ih _ (i + 1) a (by omega)]
    by_cases h1 : a = dest + i
    · subst h1
      have h2 : ¬ (dest + (i + 1) ≤ dest + i ∧ dest + i < dest + count) := by omega
      have h3 : dest + i ≤ dest + i ∧ dest + i < dest + count := by omega
      simp [h2, h3, set_byte]
    · by_cases h2 : dest + (i + 1) ≤ a ∧ a < dest + count
      · have h3 : dest + i ≤ a ∧ a < dest + count := by omega
        have h4 : src + (a - dest) ≠ dest + i := by omega
        simp [h2, h3, set_byte, h4]
      · have h3 : ¬ (dest + i ≤ a ∧ a < dest + count) := by omega
        simp [h2, h3, set_byte, h1]
/-- The size computation of `move` is done in `size_t`: for `n = 2 ^ 63` the
byte count `n * 2` wraps to 0 and nothing is moved.  No range of `2 ^ 63`
16-bit units lies in a memory of `2 ^ 64` bytes, so no call on existing buffers
reaches this. -/
theorem move_count_wraps (mem : Mem) (dest src : Nat) :
    (char_traits_unsigned_short.move mem dest src (2 ^ 63)).1 = mem := by
  have h : 2 ^ 63 * char_traits_unsigned_short.sizeof_char_type % 2 ^ SIZE_BITS = 0 := by decide
  simp only [char_traits_unsigned_short.move, h, memmove, read_bytes, write_bytes]

/-! ## The fill loop -/

/-- The fill loop of the 16-bit specialisation writes only to the bytes of the
units `dest[i] .. dest[i + todo - 1]`. -/
theorem assign_loop_short_frame (dest v : Nat) (todo : Nat) : ∀ (mem : Mem) (i a : Nat),
    (a < char_traits_unsigned_short.index dest i ∨
      char_traits_unsigned_short.index dest (i + todo) ≤ a) →
    char_traits_unsigned_short.assign_loop dest v mem i todo a = mem a := by
  induction todo with
  | zero => intro mem i a _; rfl
  | succ t ih =>
    intro mem i a h
    simp only [char_traits_unsigned_short.index,
      char_traits_unsigned_short.sizeof_char_type] at h
    rw [char_traits_unsigned_short.assign_loop, ih _ (i + 1) a (by
      simp only [char_traits_unsigned_short.index,
        char_traits_unsigned_short.sizeof_char_type]
      omega)]
    have h1 : a ≠ dest + 2 * i := by omega
    have h2 : a ≠ dest + 2 * i + 1 := by omega
    simp [char_traits_unsigned_short.store, char_traits_unsigned_short.index,
      char_traits_unsigned_short.sizeof_char_type, set_byte, h1, h2]

/-- After the fill loop of the 16-bit specialisation every unit it visited holds
the fill value. -/
theorem assign_loop_short_fill (dest v : Nat) (hv : v < 65536) (todo : Nat) :
    ∀ (mem : Mem) (i j : Nat), i ≤ j → j < i + todo →
    char_traits_unsigned_short.load (char_traits_unsigned_short.assign_loop dest v mem i todo)
      (char_traits_unsigned_short.index dest j) = v := by
  induction todo with
  | zero => intro mem i j h1 h2; omega
  | succ t ih =>
    intro mem i j h1 h2
    rw [char_traits_unsigned_short.assign_loop]
    by_cases hj : j = i
    · subst hj
      have f0 := assign_loop_short_frame dest v t
        (char_traits_unsigned_short.store mem (char_traits_unsigned_short.index dest j) v)
        (j + 1) (char_traits_unsigned_short.index dest j) (by
          simp only [char_traits_unsigned_short.index,
            char_traits_unsigned_short.sizeof_char_type]
          omega)
      have f1 := assign_loop_short_frame dest v t
        (char_traits_unsigned_short.store mem (char_traits_unsigned_short.index dest j) v)
        (j + 1) (char_traits_unsigned_short.index dest j + 1) (by
          simp only [char_traits_unsigned_short.index,
            char_traits_unsigned_short.sizeof_char_type]
          omega)
      simp only [char_traits_unsigned_short.load, f0, f1]
      simp only [char_traits_unsigned_short.store, set_byte]
      simp
      omega
    · exact ih _ (i + 1) j (by omega) (by omega)

/-- The fill loop of the 32-bit specialisation writes only to the bytes of the
units `dest[i] .. dest[i + todo - 1]`. -/
theorem assign_loop_int_frame (dest v : Nat) (todo : Nat) : ∀ (mem : Mem) (i a : Nat),
    (a < char_traits_unsigned_int.index dest i ∨
      char_traits_unsigned_int.index dest (i + todo) ≤ a) →
    char_traits_unsigned_int.assign_loop dest v mem i todo a = mem a := by
  induction todo with
  | zero => intro mem i a _; rfl
  | succ t ih =>
    intro mem i a h
    simp only [char_traits_unsigned_int.index,
      char_traits_unsigned_int.sizeof_char_type] at h
    rw [char_traits_unsigned_int.assign_loop, ih _ (i + 1) a (by
      simp only [char_traits_unsigned_int.index,
        char_traits_unsigned_int.sizeof_char_type]
      omega)]
    have h1 : a ≠ dest + 4 * i := by omega
    have h2 : a ≠ dest + 4 * i + 1 := by omega
    have h3 : a ≠ dest + 4 * i + 2 := by omega
    have h4 : a ≠ dest + 4 * i + 3 := by omega
    simp [char_traits_unsigned_int.store, char_traits_unsigned_int.index,
      char_traits_unsigned_int.sizeof_char_type, set_byte, h1, h2, h3, h4]

/-- After the fill loop of the 32-bit specialisation every unit it visited holds
the fill value. -/
theorem assign_loop_int_fill (dest v : Nat) (hv : v < 4294967296) (todo : Nat) :
    ∀ (mem : Mem) (i j : Nat), i ≤ j → j < i + todo →
    char_traits_unsigned_int.load (char_traits_unsigned_int.assign_loop dest v mem i todo)
      (char_traits_unsigned_int.index dest j) = v := by
  induction todo with
  | zero => intro mem i j h1 h2; omega
  | succ t ih =>
    intro mem i j h1 h2
    rw [char_traits_unsigned_int.assign_loop]
    by_cases hj : j = i
    · subst hj
      have f : ∀ b, b < 4 → char_traits_unsigned_int.assign_loop dest v
          (char_traits_unsigned_int.store mem (char_traits_unsigned_int.index dest j) v)
          (j + 1) t (char_traits_unsigned_int.index dest j + b)
          = char_traits_unsigned_int.store mem (char_traits_unsigned_int.index dest j) v
              (char_traits_unsigned_int.index dest j + b) := by
        intro b hb
        apply assign_loop_int_frame
        simp only [char_traits_unsigned_int.index,
          char_traits_unsigned_int.sizeof_char_type]
        omega
      have f0 := f 0 (by omega)
      simp only [Nat.add_zero] at f0
      simp only [char_traits_unsigned_int.load, f0, f 1 (by omega), f 2 (by omega),
        f 3 (by omega)]
      simp only [char_traits_unsigned_int.store, set_byte]
      simp
      omega
    · exact ih _ (i + 1) j (by omega) (by omega)

/-! ## The end-of-sequence value -/

/-- In the 16-bit specialisation `eof()` is `-1` converted to 32 unsigned
bits. -/
theorem eof_short_value : char_traits_unsigned_short.eof = 4294967295 := by decide

/-- In the 32-bit specialisation `eof()` is `-1` converted to 32 unsigned
bits. -/
theorem eof_int_value : char_traits_unsigned_int.eof = 4294967295 := by decide

/-! ## Claims -/

/-- C1: in both specialisations, when `s1` and `s2` agree on the units
`0..k-1`, `k < n` and `s1[k] < s2[k]`, `compare(s1, s2, n)` is -1 and
`compare(s2, s1, n)` is 1, whatever the units after position `k` are. -/
theorem compare_first_difference (s1 s2 : Buf) (n k : Nat) (hk : k < n)
    (hagree : ∀ j, j < k → s1 j = s2 j) (hlt : s1 k < s2 k) :
    (char_traits_unsigned_short.compare s1 s2 n = -1 ∧
      char_traits_unsigned_short.compare s2 s1 n = 1) ∧
    (char_traits_unsigned_int.compare s1 s2 n = -1 ∧
      char_traits_unsigned_int.compare s2 s1 n = 1) := by
  have h := compare_loop_first_diff s1 s2 k 0 n hk
    (fun j _ h2 => hagree j (by omega)) (by simpa using hlt)
  refine ⟨h, ?_, ?_⟩
  · unfold char_traits_unsigned_int.compare
    rw [compare_loop_int_eq_short]; exact h.1
  · unfold char_traits_unsigned_int.compare
    rw [compare_loop_int_eq_short]; exact h.2

/-- Witness of C1 on `[1,2,3]` and `[1,2,4]` with `n = 3`, `k = 2`. -/
theorem compare_first_difference_witness :
    (2 < 3 ∧ (∀ j, j < 2 → buf_of [1, 2, 3] j = buf_of [1, 2, 4] j) ∧
      buf_of [1, 2, 3] 2 < buf_of [1, 2, 4] 2) ∧
    ((char_traits_unsigned_short.compare (buf_of [1, 2, 3]) (buf_of [1, 2, 4]) 3 = -1 ∧
      char_traits_unsigned_short.compare (buf_of [1, 2, 4]) (buf_of [1, 2, 3]) 3 = 1) ∧
    (char_traits_unsigned_int.compare (buf_of [1, 2, 3]) (buf_of [1, 2, 4]) 3 = -1 ∧
      char_traits_unsigned_int.compare (buf_of [1, 2, 4]) (buf_of [1, 2, 3]) 3 = 1)) :=
  ⟨⟨by decide, by decide, by decide⟩,
    compare_first_difference (buf_of [1, 2, 3]) (buf_of [1, 2, 4]) 3 2
      (by decide) (by decide) (by decide)⟩

/-- C2: in both specialisations, when the first zero unit of the buffer is at
index `k`, `length` returns `k` as soon as it is given the `k + 1` evaluations
of its loop condition that it needs; the result does not depend on the bound. -/
theorem length_first_zero (s : Buf) (k : Nat) (hnz : ∀ j, j < k → s j ≠ 0) (hz : s k = 0)
    (fuel : Nat) (hfuel : k < fuel) :
    char_traits_unsigned_short.length s fuel = some k ∧
    char_traits_unsigned_int.length s fuel = some k := by
  have h := length_loop_first_zero s k 0 fuel hfuel
    (fun j _ h2 => hnz j (by omega)) (by simpa using hz)
  have h0 : char_traits_unsigned_short.length s fuel = some k := by
    unfold char_traits_unsigned_short.length; simpa using h
  refine ⟨h0, ?_⟩
  unfold char_traits_unsigned_int.length
  rw [length_loop_int_eq_short]; exact h0

/-- Witness of C2 on `[5,9,0,7]`, whose first zero unit is at index 2. -/
theorem length_first_zero_witness :
    ((∀ j, j < 2 → buf_of [5, 9, 0, 7] j ≠ 0) ∧ buf_of [5, 9, 0, 7] 2 = 0 ∧ 2 < 3) ∧
    (char_traits_unsigned_short.length (buf_of [5, 9, 0, 7]) 3 = some 2 ∧
      char_traits_unsigned_int.length (buf_of [5, 9, 0, 7]) 3 = some 2) :=
  ⟨⟨by decide, by decide, by decide⟩,
    length_first_zero (buf_of [5, 9, 0, 7]) 2 (by decide) (by decide) 3 (by decide)⟩

/-- C3: in both specialisations, if `p < n` is the first position holding `v`
then `find(s, n, v)` returns the pointer to position `p`; if `v` occurs among
the first `n` units there is such a first position, and `find` returns it; and
if `v` is not among the first `n` units (in particular when `n = 0`) `find`
returns the null pointer. -/
theorem find_first_occurrence (s : Buf) (n v : Nat) :
    (∀ p, p < n → s p = v → (∀ j, j < p → s j ≠ v) →
      char_traits_unsigned_short.find s n v = some p ∧
      char_traits_unsigned_int.find s n v = some p) ∧
    ((∃ j, j < n ∧ s j = v) →
      ∃ p, p < n ∧ s p = v ∧ (∀ j, j < p → s j ≠ v) ∧
        char_traits_unsigned_short.find s n v = some p ∧
        char_traits_unsigned_int.find s n v = some p) ∧
    ((∀ j, j < n → s j ≠ v) →
      char_traits_unsigned_short.find s n v = none ∧
      char_traits_unsigned_int.find s n v = none) := by
  have first : ∀ p, p < n → s p = v → (∀ j, j < p → s j ≠ v) →
      char_traits_unsigned_short.find s n v = some p ∧
      char_traits_unsigned_int.find s n v = some p := by
    intro p hp hv hfirst
    have h := find_loop_first s v p 0 n hp (fun j _ h2 => hfirst j (by omega)) (by simpa using hv)
    have h0 : char_traits_unsigned_short.find s n v = some p := by
      unfold char_traits_unsigned_short.find; simpa using h
    refine ⟨h0, ?_⟩
    unfold char_traits_unsigned_int.find
    rw [find_loop_int_eq_short]; exact h0
  refine ⟨first, ?_, ?_⟩
  · intro hex
    have hp := Nat.find_spec hex
    have hmin : ∀ j, j < Nat.find hex → s j ≠ v := fun j hj hjv =>
      Nat.find_min hex hj ⟨by omega, hjv⟩
    exact ⟨Nat.find hex, hp.1, hp.2, hmin, first (Nat.find hex) hp.1 hp.2 hmin⟩
  · intro habs
    have h := find_loop_absent s v n 0 (fun j _ h2 => habs j (by omega))
    refine ⟨h, ?_⟩
    unfold char_traits_unsigned_int.find
    rw [find_loop_int_eq_short]; exact h

/-- Witness of C3 on `[5,9,0,7]`: 9 is found at index 1 and 7 at index 3 among
four units, 7 is not found among the first two, and nothing is found among
zero units. -/
theorem find_first_occurrence_witness :
    ((1 < 4 ∧ buf_of [5, 9, 0, 7] 1 = 9 ∧ ∀ j, j < 1 → buf_of [5, 9, 0, 7] j ≠ 9) ∧
      char_traits_unsigned_short.find (buf_of [5, 9, 0, 7]) 4 9 = some 1 ∧
      char_traits_unsigned_int.find (buf_of [5, 9, 0, 7]) 4 9 = some 1) ∧
    ((3 < 4 ∧ buf_of [5, 9, 0, 7] 3 = 7 ∧ ∀ j, j < 3 → buf_of [5, 9, 0, 7] j ≠ 7) ∧
      char_traits_unsigned_short.find (buf_of [5, 9, 0, 7]) 4 7 = some 3 ∧
      char_traits_unsigned_int.find (buf_of [5, 9, 0, 7]) 4 7 = some 3) ∧
    ((∀ j, j < 2 → buf_of [5, 9, 0, 7] j ≠ 7) ∧
      char_traits_unsigned_short.find (buf_of [5, 9, 0, 7]) 2 7 = none ∧
      char_traits_unsigned_int.find (buf_of [5, 9, 0, 7]) 2 7 = none) ∧
    ((∀ j, j < 0 → buf_of [5, 9, 0, 7] j ≠ 5) ∧
      char_traits_unsigned_short.find (buf_of [5, 9, 0, 7]) 0 5 = none ∧
      char_traits_unsigned_int.find (buf_of [5, 9, 0, 7]) 0 5 = none) :=
  ⟨⟨⟨by decide, by decide, by decide⟩,
      (find_first_occurrence (buf_of [5, 9, 0, 7]) 4 9).1 1 (by decide) (by decide) (by decide)⟩,
    ⟨⟨by decide, by decide, by decide⟩,
      (find_first_occurrence (buf_of [5, 9, 0, 7]) 4 7).1 3 (by decide) (by decide) (by decide)⟩,
    ⟨by decide, (find_first_occurrence (buf_of [5, 9, 0, 7]) 2 7).2.2 (by decide)⟩,
    ⟨by decide, (find_first_occurrence (buf_of [5, 9, 0, 7]) 0 5).2.2 (by decide)⟩⟩

/-- C4: in both specialisations, for every memory, every `n` and every pair of
addresses `dest`, `src` (no relation between them is assumed, so the ranges may
overlap in either direction or coincide), after `move(dest, src, n)` each unit
`dest[i]`, `i < n`, holds the value `src[i]` had before the call.  The ranges
lie in memory, so their size in bytes, `n * sizeof(char_type)`, is a value of
`size_t`. -/
theorem move_gives_source (mem : Mem) (dest src n i : Nat) (hi : i < n) :
    (n * char_traits_unsigned_short.sizeof_char_type < 2 ^ SIZE_BITS →
      char_traits_unsigned_short.load (char_traits_unsigned_short.move mem dest src n).1
          (char_traits_unsigned_short.index dest i)
        = char_traits_unsigned_short.load mem (char_traits_unsigned_short.index src i)) ∧
    (n * char_traits_unsigned_int.sizeof_char_type < 2 ^ SIZE_BITS →
      char_traits_unsigned_int.load (char_traits_unsigned_int.move mem dest src n).1
          (char_traits_unsigned_int.index dest i)
        = char_traits_unsigned_int.load mem (char_traits_unsigned_int.index src i)) := by
  constructor
  · intro hn
    have hmod : n * 2 % 2 ^ SIZE_BITS = n * 2 := Nat.mod_eq_of_lt hn
    have b : ∀ k, k < 2 →
        (char_traits_unsigned_short.move mem dest src n).1 (dest + 2 * i + k)
          = mem (src + 2 * i + k) := by
      intro k hk
      simp only [char_traits_unsigned_short.move, char_traits_unsigned_short.sizeof_char_type, hmod, memmove_apply]
      have h1 : dest ≤ dest + 2 * i + k ∧ dest + 2 * i + k < dest + n * 2 := by omega
      have h2 : src + (dest + 2 * i + k - dest) = src + 2 * i + k := by omega
      simp only [h1, and_self, if_true, h2]
    have b0 := b 0 (by omega)
    simp only [Nat.add_zero] at b0
    simp only [char_traits_unsigned_short.load, char_traits_unsigned_short.index,
      char_traits_unsigned_short.sizeof_char_type, b0, b 1 (by omega)]
  · intro hn
    have hmod : n * 4 % 2 ^ SIZE_BITS = n * 4 := Nat.mod_eq_of_lt hn
    have b : ∀ k, k < 4 →
        (char_traits_unsigned_int.move mem dest src n).1 (dest + 4 * i + k)
          = mem (src + 4 * i + k) := by
      intro k hk
      simp only [char_traits_unsigned_int.move, char_traits_unsigned_int.sizeof_char_type, hmod, memmove_apply]
      have h1 : dest ≤ dest + 4 * i + k ∧ dest + 4 * i + k < dest + n * 4 := by omega
      have h2 : src + (dest + 4 * i + k - dest) = src + 4 * i + k := by omega
      simp only [h1, and_self, if_true, h2]
    have b0 := b 0 (by omega)
    simp only [Nat.add_zero] at b0
    simp only [char_traits_unsigned_int.load, char_traits_unsigned_int.index,
      char_traits_unsigned_int.sizeof_char_type, b0, b 1 (by omega), b 2 (by omega),
      b 3 (by omega)]

/-- Witness of C4: three units moved from address 0 to address 4 of a memory
whose bytes are 1, 2, 3, ...; the ranges overlap in both specialisations. -/
theorem move_gives_source_witness :
    (2 < 3 ∧ 3 * char_traits_unsigned_short.sizeof_char_type < 2 ^ SIZE_BITS ∧
      3 * char_traits_unsigned_int.sizeof_char_type < 2 ^ SIZE_BITS) ∧
    char_traits_unsigned_short.load
        (char_traits_unsigned_short.move (fun a => a + 1) 4 0 3).1
        (char_traits_unsigned_short.index 4 2)
      = char_traits_unsigned_short.load (fun a => a + 1)
          (char_traits_unsigned_short.index 0 2) ∧
    char_traits_unsigned_int.load
        (char_traits_unsigned_int.move (fun a => a + 1) 4 0 3).1
        (char_traits_unsigned_int.index 4 2)
      = char_traits_unsigned_int.load (fun a => a + 1)
          (char_traits_unsigned_int.index 0 2) :=
  ⟨⟨by decide, by decide, by decide⟩,
    (move_gives_source (fun a => a + 1) 4 0 3 2 (by decide)).1 (by decide),
    (move_gives_source (fun a => a + 1) 4 0 3 2 (by decide)).2 (by decide)⟩

/-- C5: in both specialisations, when the ranges `dest[0..n)` and `src[0..n)`
do not overlap (and lie in memory, so that `n * sizeof(char_type)` is a value of
`size_t`), `copy(dest, src, n)` is defined, returns `dest`, and afterwards each
unit `dest[i]`, `i < n`, equals `src[i]` while the units `src[i]` are
unchanged. -/
theorem copy_disjoint (mem : Mem) (dest src n : Nat) :
    (n * char_traits_unsigned_short.sizeof_char_type < 2 ^ SIZE_BITS →
      (char_traits_unsigned_short.index dest n ≤ src ∨
        char_traits_unsigned_short.index src n ≤ dest) →
      ∃ mem' : Mem, char_traits_unsigned_short.copy mem dest src n = some (mem', dest) ∧
        ∀ i, i < n →
          char_traits_unsigned_short.load mem' (char_traits_unsigned_short.index dest i)
            = char_traits_unsigned_short.load mem (char_traits_unsigned_short.index src i) ∧
          char_traits_unsigned_short.load mem' (char_traits_unsigned_short.index src i)
            = char_traits_unsigned_short.load mem (char_traits_unsigned_short.index src i)) ∧
    (n * char_traits_unsigned_int.sizeof_char_type < 2 ^ SIZE_BITS →
      (char_traits_unsigned_int.index dest n ≤ src ∨
        char_traits_unsigned_int.index src n ≤ dest) →
      ∃ mem' : Mem, char_traits_unsigned_int.copy mem dest src n = some (mem', dest) ∧
        ∀ i, i < n →
          char_traits_unsigned_int.load mem' (char_traits_unsigned_int.index dest i)
            = char_traits_unsigned_int.load mem (char_traits_unsigned_int.index src i) ∧
          char_traits_unsigned_int.load mem' (char_traits_unsigned_int.index src i)
            = char_traits_unsigned_int.load mem (char_traits_unsigned_int.index src i)) := by
  constructor
  · intro hn hdis
    have hmod : n * 2 % 2 ^ SIZE_BITS = n * 2 := Nat.mod_eq_of_lt hn
    simp only [char_traits_unsigned_short.index,
      char_traits_unsigned_short.sizeof_char_type] at hdis
    have hdis' : dest + n * 2 ≤ src ∨ src + n * 2 ≤ dest := by omega
    refine ⟨memcpy_loop dest src mem 0 (n * 2), ?_, ?_⟩
    · simp only [char_traits_unsigned_short.copy, char_traits_unsigned_short.sizeof_char_type, hmod, memcpy, hdis', if_true]
    · intro i hi
      have bd : ∀ k, k < 2 → memcpy_loop dest src mem 0 (n * 2) (dest + 2 * i + k)
          = mem (src + 2 * i + k) := by
        intro k hk
        rw [memcpy_loop_apply dest src (n * 2) hdis' (n * 2) mem 0 _ (by omega)]
        have h1 : dest + 0 ≤ dest + 2 * i + k ∧ dest + 2 * i + k < dest + n * 2 := by omega
        have h2 : src + (dest + 2 * i + k - dest) = src + 2 * i + k := by omega
        simp only [h1, and_self, if_true, h2]
      have bs : ∀ k, k < 2 → memcpy_loop dest src mem 0 (n * 2) (src + 2 * i + k)
          = mem (src + 2 * i + k) := by
        intro k hk
        rw [memcpy_loop_apply dest src (n * 2) hdis' (n * 2) mem 0 _ (by omega)]
        have h1 : ¬ (dest + 0 ≤ src + 2 * i + k ∧ src + 2 * i + k < dest + n * 2) := by omega
        simp only [h1, if_false]
      have bd0 := bd 0 (by omega)
      have bs0 := bs 0 (by omega)
      simp only [Nat.add_zero] at bd0 bs0
      simp only [char_traits_unsigned_short.load, char_traits_unsigned_short.index,
        char_traits_unsigned_short.sizeof_char_type, bd0, bd 1 (by omega), bs0,
        bs 1 (by omega), and_self]
  · intro hn hdis
    have hmod : n * 4 % 2 ^ SIZE_BITS = n * 4 := Nat.mod_eq_of_lt hn
    simp only [char_traits_unsigned_int.index,
      char_traits_unsigned_int.sizeof_char_type] at hdis
    have hdis' : dest + n * 4 ≤ src ∨ src + n * 4 ≤ dest := by omega
    refine ⟨memcpy_loop dest src mem 0 (n * 4), ?_, ?_⟩
    · simp only [char_traits_unsigned_int.copy, char_traits_unsigned_int.sizeof_char_type, hmod, memcpy, hdis', if_true]
    · intro i hi
      have bd : ∀ k, k < 4 → memcpy_loop dest src mem 0 (n * 4) (dest + 4 * i + k)
          = mem (src + 4 * i + k) := by
        intro k hk
        rw [memcpy_loop_apply dest src (n * 4) hdis' (n * 4) mem 0 _ (by omega)]
        have h1 : dest + 0 ≤ dest + 4 * i + k ∧ dest + 4 * i + k < dest + n * 4 := by omega
        have h2 : src + (dest + 4 * i + k - dest) = src + 4 * i + k := by omega
        simp only [h1, and_self, if_true, h2]
      have bs : ∀ k, k < 4 → memcpy_loop dest src mem 0 (n * 4) (src + 4 * i + k)
          = mem (src + 4 * i + k) := by
        intro k hk
        rw [memcpy_loop_apply dest src (n * 4) hdis' (n * 4) mem 0 _ (by omega)]
        have h1 : ¬ (dest + 0 ≤ src + 4 * i + k ∧ src + 4 * i + k < dest + n * 4) := by omega
        simp only [h1, if_false]
      have bd0 := bd 0 (by omega)
      have bs0 := bs 0 (by omega)
      simp only [Nat.add_zero] at bd0 bs0
      simp only [char_traits_unsigned_int.load, char_traits_unsigned_int.index,
        char_traits_unsigned_int.sizeof_char_type, bd0, bd 1 (by omega), bd 2 (by omega),
        bd 3 (by omega), bs0, bs 1 (by omega), bs 2 (by omega), bs 3 (by omega), and_self]

/-- Witness of C5: two units copied from address 0 to address 8, ranges that are
disjoint in both specialisations. -/
theorem copy_disjoint_witness :
    ((2 * char_traits_unsigned_short.sizeof_char_type < 2 ^ SIZE_BITS ∧
        (char_traits_unsigned_short.index 8 2 ≤ 0 ∨ char_traits_unsigned_short.index 0 2 ≤ 8)) ∧
      ∃ mem' : Mem,
        char_traits_unsigned_short.copy (fun a => a + 1) 8 0 2 = some (mem', 8) ∧
        ∀ i, i < 2 →
          char_traits_unsigned_short.load mem' (char_traits_unsigned_short.index 8 i)
            = char_traits_unsigned_short.load (fun a => a + 1)
                (char_traits_unsigned_short.index 0 i) ∧
          char_traits_unsigned_short.load mem' (char_traits_unsigned_short.index 0 i)
            = char_traits_unsigned_short.load (fun a => a + 1)
                (char_traits_unsigned_short.index 0 i)) ∧
    ((2 * char_traits_unsigned_int.sizeof_char_type < 2 ^ SIZE_BITS ∧
        (char_traits_unsigned_int.index 8 2 ≤ 0 ∨ char_traits_unsigned_int.index 0 2 ≤ 8)) ∧
      ∃ mem' : Mem,
        char_traits_unsigned_int.copy (fun a => a + 1) 8 0 2 = some (mem', 8) ∧
        ∀ i, i < 2 →
          char_traits_unsigned_int.load mem' (char_traits_unsigned_int.index 8 i)
            = char_traits_unsigned_int.load (fun a => a + 1)
                (char_traits_unsigned_int.index 0 i) ∧
          char_traits_unsigned_int.load mem' (char_traits_unsigned_int.index 0 i)
            = char_traits_unsigned_int.load (fun a => a + 1)
                (char_traits_unsigned_int.index 0 i)) :=
  ⟨⟨⟨by decide, by decide⟩, (copy_disjoint (fun a => a + 1) 8 0 2).1 (by decide) (by decide)⟩,
    ⟨⟨by decide, by decide⟩, (copy_disjoint (fun a => a + 1) 8 0 2).2 (by decide) (by decide)⟩⟩

/-- C6: in both specialisations, after `assign(dest, n, v)` with `v` a code unit,
every unit `dest[i]` with `i < n` equals `v`. -/
theorem assign_fills (mem : Mem) (dest n v i : Nat) (hi : i < n) :
    (v < 2 ^ char_traits_unsigned_short.CHAR_BITS →
      char_traits_unsigned_short.load (char_traits_unsigned_short.assign mem dest n v).1
        (char_traits_unsigned_short.index dest i) = v) ∧
    (v < 2 ^ char_traits_unsigned_int.CHAR_BITS →
      char_traits_unsigned_int.load (char_traits_unsigned_int.assign mem dest n v).1
        (char_traits_unsigned_int.index dest i) = v) := by
  constructor
  · intro hv
    exact assign_loop_short_fill dest v (by simpa [char_traits_unsigned_short.CHAR_BITS] using hv)
      n mem 0 i (Nat.zero_le i) (by omega)
  · intro hv
    exact assign_loop_int_fill dest v (by simpa [char_traits_unsigned_int.CHAR_BITS] using hv)
      n mem 0 i (Nat.zero_le i) (by omega)

/-- Witness of C6: three units at address 4 filled with the value 513. -/
theorem assign_fills_witness :
    (2 < 3 ∧ 513 < 2 ^ char_traits_unsigned_short.CHAR_BITS ∧
      513 < 2 ^ char_traits_unsigned_int.CHAR_BITS) ∧
    char_traits_unsigned_short.load (char_traits_unsigned_short.assign (fun _ => 7) 4 3 513).1
      (char_traits_unsigned_short.index 4 2) = 513 ∧
    char_traits_unsigned_int.load (char_traits_unsigned_int.assign (fun _ => 7) 4 3 513).1
      (char_traits_unsigned_int.index 4 2) = 513 :=
  ⟨⟨by decide, by decide, by decide⟩,
    (assign_fills (fun _ => 7) 4 3 513 2 (by decide)).1 (by decide),
    (assign_fills (fun _ => 7) 4 3 513 2 (by decide)).2 (by decide)⟩

/-- C7, as amended: in the 16-bit specialisation the integer type is wider than
the code-unit type and no code unit converts to the end-of-sequence value; in
the 32-bit specialisation the two types have the same width, and a code unit
converts to a value different from the end-of-sequence value exactly when it is
not `2 ^ 32 - 1`. -/
theorem eof_distinct_from_units (c : Nat) :
    (char_traits_unsigned_short.CHAR_BITS < char_traits_unsigned_short.INT_BITS ∧
      (c < 2 ^ char_traits_unsigned_short.CHAR_BITS →
        char_traits_unsigned_short.eq_int_type (char_traits_unsigned_short.to_int_type c)
          char_traits_unsigned_short.eof = false)) ∧
    (char_traits_unsigned_int.CHAR_BITS = char_traits_unsigned_int.INT_BITS ∧
      (char_traits_unsigned_int.eq_int_type (char_traits_unsigned_int.to_int_type c)
          char_traits_unsigned_int.eof = false ↔ c ≠ 2 ^ 32 - 1)) := by
  refine ⟨⟨by decide, ?_⟩, ⟨rfl, ?_⟩⟩
  · intro hc
    simp only [char_traits_unsigned_short.CHAR_BITS] at hc
    have h : c % 2 ^ 32 ≠ 4294967295 := by omega
    simp only [char_traits_unsigned_short.eq_int_type, char_traits_unsigned_short.to_int_type,
      char_traits_unsigned_short.INT_BITS, eof_short_value]
    simpa using h
  · simp only [char_traits_unsigned_int.eq_int_type, char_traits_unsigned_int.to_int_type,
      eof_int_value]
    simp

/-- Witness of C7 as amended, at the 16-bit code unit `0xFFFF`. -/
theorem eof_distinct_from_units_witness :
    65535 < 2 ^ char_traits_unsigned_short.CHAR_BITS ∧
    char_traits_unsigned_short.eq_int_type (char_traits_unsigned_short.to_int_type 65535)
      char_traits_unsigned_short.eof = false :=
  ⟨by decide, (eof_distinct_from_units 65535).1.2 (by decide)⟩

/-- Counterexample to C7 as stated: in the 32-bit specialisation the integer
type is not wider than the code-unit type, and the 32-bit code unit
`0xFFFFFFFF` converts to the end-of-sequence value. -/
theorem eof_collides_with_unit :
    ¬ (char_traits_unsigned_int.CHAR_BITS < char_traits_unsigned_int.INT_BITS) ∧
    4294967295 < 2 ^ char_traits_unsigned_int.CHAR_BITS ∧
    char_traits_unsigned_int.eq_int_type (char_traits_unsigned_int.to_int_type 4294967295)
      char_traits_unsigned_int.eof = true := by
  decide

/-- C8: in both specialisations, `to_char_type(to_int_type(c))` equals `c` for
every code unit `c`. -/
theorem to_char_type_to_int_type (c : Nat) :
    (c < 2 ^ char_traits_unsigned_short.CHAR_BITS →
      char_traits_unsigned_short.to_char_type (char_traits_unsigned_short.to_int_type c) = c) ∧
    (c < 2 ^ char_traits_unsigned_int.CHAR_BITS →
      char_traits_unsigned_int.to_char_type (char_traits_unsigned_int.to_int_type c) = c) := by
  constructor
  · intro hc
    simp only [char_traits_unsigned_short.CHAR_BITS] at hc
    simp only [char_traits_unsigned_short.to_char_type, char_traits_unsigned_short.to_int_type,
      char_traits_unsigned_short.CHAR_BITS, char_traits_unsigned_short.INT_BITS]
    omega
  · intro _
    rfl

/-- Witness of C8 at the code unit `0xFFFF`. -/
theorem to_char_type_to_int_type_witness :
    (65535 < 2 ^ char_traits_unsigned_short.CHAR_BITS ∧
      65535 < 2 ^ char_traits_unsigned_int.CHAR_BITS) ∧
    char_traits_unsigned_short.to_char_type (char_traits_unsigned_short.to_int_type 65535)
      = 65535 ∧
    char_traits_unsigned_int.to_char_type (char_traits_unsigned_int.to_int_type 65535)
      = 65535 :=
  ⟨⟨by decide, by decide⟩, (to_char_type_to_int_type 65535).1 (by decide),
    (to_char_type_to_int_type 65535).2 (by decide)⟩

/-- C9: in both specialisations, `not_eof(eof())` is 0, and `not_eof(i)` is `i`
for every integer value `i` for which `eq_int_type(i, eof())` is false. -/
theorem not_eof_spec (i : Nat) :
    (char_traits_unsigned_short.not_eof char_traits_unsigned_short.eof = 0 ∧
      (char_traits_unsigned_short.eq_int_type i char_traits_unsigned_short.eof = false →
        char_traits_unsigned_short.not_eof i = i)) ∧
    (char_traits_unsigned_int.not_eof char_traits_unsigned_int.eof = 0 ∧
      (char_traits_unsigned_int.eq_int_type i char_traits_unsigned_int.eof = false →
        char_traits_unsigned_int.not_eof i = i)) := by
  refine ⟨⟨by decide, ?_⟩, ⟨by decide, ?_⟩⟩
  · intro h
    simp [char_traits_unsigned_short.not_eof, h]
  · intro h
    simp [char_traits_unsigned_int.not_eof, h]

/-- Witness of C9 at the integer value 65. -/
theorem not_eof_spec_witness :
    (char_traits_unsigned_short.eq_int_type 65 char_traits_unsigned_short.eof = false ∧
      char_traits_unsigned_int.eq_int_type 65 char_traits_unsigned_int.eof = false) ∧
    char_traits_unsigned_short.not_eof 65 = 65 ∧ char_traits_unsigned_int.not_eof 65 = 65 :=
  ⟨⟨by decide, by decide⟩, (not_eof_spec 65).1.2 (by decide), (not_eof_spec 65).2.2 (by decide)⟩

/-- C10: in both specialisations, `compare(s, s, n)` is 0 for every buffer `s`
and every `n`, zero included. -/
theorem compare_self (s : Buf) (n : Nat) :
    char_traits_unsigned_short.compare s s n = 0 ∧
    char_traits_unsigned_int.compare s s n = 0 := by
  have h := compare_loop_agree s s n 0 (fun _ _ _ => rfl)
  refine ⟨h, ?_⟩
  unfold char_traits_unsigned_int.compare
  rw [compare_loop_int_eq_short]; exact h

/-- C11: `compare` and `find` work within the count `n`.  In both
specialisations, buffers that agree on their first `n` units give the same
result, whatever they hold from index `n` on; and a zero unit among the first
`n` units does not stop the scan: `compare([1,0,2], [1,0,3], 3)` is -1 and
`find([1,0,7], 3, 7)` is the pointer to index 2. -/
theorem compare_find_within_count (s1 s2 t1 t2 : Buf) (n v : Nat)
    (h1 : ∀ j, j < n → s1 j = t1 j) (h2 : ∀ j, j < n → s2 j = t2 j) :
    (char_traits_unsigned_short.compare s1 s2 n = char_traits_unsigned_short.compare t1 t2 n ∧
      char_traits_unsigned_short.find s1 n v = char_traits_unsigned_short.find t1 n v ∧
      char_traits_unsigned_short.compare (buf_of [1, 0, 2]) (buf_of [1, 0, 3]) 3 = -1 ∧
      char_traits_unsigned_short.find (buf_of [1, 0, 7]) 3 7 = some 2) ∧
    (char_traits_unsigned_int.compare s1 s2 n = char_traits_unsigned_int.compare t1 t2 n ∧
      char_traits_unsigned_int.find s1 n v = char_traits_unsigned_int.find t1 n v ∧
      char_traits_unsigned_int.compare (buf_of [1, 0, 2]) (buf_of [1, 0, 3]) 3 = -1 ∧
      char_traits_unsigned_int.find (buf_of [1, 0, 7]) 3 7 = some 2) := by
  have hc := compare_loop_congr s1 s2 t1 t2 n 0 (fun j _ hj => h1 j (by omega))
    (fun j _ hj => h2 j (by omega))
  have hf := find_loop_congr s1 t1 v n 0 (fun j _ hj => h1 j (by omega))
  refine ⟨⟨hc, hf, by decide, by decide⟩, ⟨?_, ?_, by decide, by decide⟩⟩
  · unfold char_traits_unsigned_int.compare
    rw [compare_loop_int_eq_short, compare_loop_int_eq_short]; exact hc
  · unfold char_traits_unsigned_int.find
    rw [find_loop_int_eq_short, find_loop_int_eq_short]; exact hf

/-- Witness of C11: `[1,0,2,9]` and `[1,0,2,0]` agree on three units, as do
`[1,0,3,0]` and `[1,0,3,8]`; they differ, and differ in holding a zero, at
index 3. -/
theorem compare_find_within_count_witness :
    ((∀ j, j < 3 → buf_of [1, 0, 2, 9] j = buf_of [1, 0, 2, 0] j) ∧
      (∀ j, j < 3 → buf_of [1, 0, 3, 0] j = buf_of [1, 0, 3, 8] j) ∧
      buf_of [1, 0, 2, 9] 3 ≠ buf_of [1, 0, 2, 0] 3) ∧
    char_traits_unsigned_short.compare (buf_of [1, 0, 2, 9]) (buf_of [1, 0, 3, 0]) 3
      = char_traits_unsigned_short.compare (buf_of [1, 0, 2, 0]) (buf_of [1, 0, 3, 8]) 3 ∧
    char_traits_unsigned_int.find (buf_of [1, 0, 2, 9]) 3 2
      = char_traits_unsigned_int.find (buf_of [1, 0, 2, 0]) 3 2 :=
  ⟨⟨by decide, by decide, by decide⟩,
    (compare_find_within_count (buf_of [1, 0, 2, 9]) (buf_of [1, 0, 3, 0]) (buf_of [1, 0, 2, 0])
      (buf_of [1, 0, 3, 8]) 3 2 (by decide) (by decide)).1.1,
    (compare_find_within_count (buf_of [1, 0, 2, 9]) (buf_of [1, 0, 3, 0]) (buf_of [1, 0, 2, 0])
      (buf_of [1, 0, 3, 8]) 3 2 (by decide) (by decide)).2.2.1⟩

/-- C12: the operations that write have no effect outside the destination
range.  In both specialisations a byte `a` that is not one of the bytes of
`dest[0..n)` holds the same value after `assign(dest, n, v)`, after
`move(dest, src, n)` and after every defined `copy(dest, src, n)` as before the
call; `copy` is defined whenever the two ranges do not overlap; and with
`n = 0` each of the three leaves the whole memory as it was. -/
theorem writes_stay_in_destination (mem : Mem) (dest src n v a : Nat) :
    (((a < dest ∨ char_traits_unsigned_short.index dest n ≤ a) →
        (char_traits_unsigned_short.assign mem dest n v).1 a = mem a ∧
        (char_traits_unsigned_short.move mem dest src n).1 a = mem a ∧
        ∀ r, char_traits_unsigned_short.copy mem dest src n = some r → r.1 a = mem a) ∧
      ((char_traits_unsigned_short.index dest n ≤ src ∨
          char_traits_unsigned_short.index src n ≤ dest) →
        ∃ r, char_traits_unsigned_short.copy mem dest src n = some r) ∧
      (char_traits_unsigned_short.assign mem dest 0 v).1 = mem ∧
      (char_traits_unsigned_short.move mem dest src 0).1 = mem ∧
      char_traits_unsigned_short.copy mem dest src 0 = some (mem, dest)) ∧
    (((a < dest ∨ char_traits_unsigned_int.index dest n ≤ a) →
        (char_traits_unsigned_int.assign mem dest n v).1 a = mem a ∧
        (char_traits_unsigned_int.move mem dest src n).1 a = mem a ∧
        ∀ r, char_traits_unsigned_int.copy mem dest src n = some r → r.1 a = mem a) ∧
      ((char_traits_unsigned_int.index dest n ≤ src ∨
          char_traits_unsigned_int.index src n ≤ dest) →
        ∃ r, char_traits_unsigned_int.copy mem dest src n = some r) ∧
      (char_traits_unsigned_int.assign mem dest 0 v).1 = mem ∧
      (char_traits_unsigned_int.move mem dest src 0).1 = mem ∧
      char_traits_unsigned_int.copy mem dest src 0 = some (mem, dest)) := by
  have hle2 : n * 2 % 2 ^ SIZE_BITS ≤ n * 2 := Nat.mod_le _ _
  have hle4 : n * 4 % 2 ^ SIZE_BITS ≤ n * 4 := Nat.mod_le _ _
  refine ⟨⟨?_, ?_, rfl, rfl, ?_⟩, ⟨?_, ?_, rfl, rfl, ?_⟩⟩
  · intro hout
    refine ⟨?_, ?_, ?_⟩
    · exact assign_loop_short_frame dest v n mem 0 a (by
        simp only [char_traits_unsigned_short.index, Nat.zero_add] at hout ⊢
        omega)
    · simp only [char_traits_unsigned_short.index,
        char_traits_unsigned_short.sizeof_char_type] at hout
      simp only [char_traits_unsigned_short.move, char_traits_unsigned_short.sizeof_char_type,
        memmove_apply]
      have hno : ¬ (dest ≤ a ∧ a < dest + n * 2 % 2 ^ SIZE_BITS) := by omega
      simp only [hno, if_false]
    · intro r hr
      simp only [char_traits_unsigned_short.index,
        char_traits_unsigned_short.sizeof_char_type] at hout
      simp only [char_traits_unsigned_short.copy, char_traits_unsigned_short.sizeof_char_type,
        memcpy] at hr
      split_ifs at hr with hdis
      have hr' := (Option.some.inj hr).symm
      subst hr'
      have hno : ¬ (dest + 0 ≤ a ∧ a < dest + n * 2 % 2 ^ SIZE_BITS) := by omega
      simp only [memcpy_loop_apply dest src _ hdis _ mem 0 a (Nat.zero_add _), hno, if_false]
  · intro hdis
    simp only [char_traits_unsigned_short.index,
      char_traits_unsigned_short.sizeof_char_type] at hdis
    have hdis' : dest + n * 2 % 2 ^ SIZE_BITS ≤ src ∨ src + n * 2 % 2 ^ SIZE_BITS ≤ dest := by
      omega
    refine ⟨(memcpy_loop dest src mem 0 (n * 2 % 2 ^ SIZE_BITS), dest), ?_⟩
    simp only [char_traits_unsigned_short.copy, char_traits_unsigned_short.sizeof_char_type,
      memcpy, hdis', if_true]
  · have h0 : dest + 0 ≤ src ∨ src + 0 ≤ dest := by omega
    simp only [char_traits_unsigned_short.copy, Nat.zero_mul, Nat.zero_mod, memcpy, h0,
      if_true, memcpy_loop]
  · intro hout
    refine ⟨?_, ?_, ?_⟩
    · exact assign_loop_int_frame dest v n mem 0 a (by
        simp only [char_traits_unsigned_int.index, Nat.zero_add] at hout ⊢
        omega)
    · simp only [char_traits_unsigned_int.index,
        char_traits_unsigned_int.sizeof_char_type] at hout
      simp only [char_traits_unsigned_int.move, char_traits_unsigned_int.sizeof_char_type,
        memmove_apply]
      have hno : ¬ (dest ≤ a ∧ a < dest + n * 4 % 2 ^ SIZE_BITS) := by omega
      simp only [hno, if_false]
    · intro r hr
      simp only [char_traits_unsigned_int.index,
        char_traits_unsigned_int.sizeof_char_type] at hout
      simp only [char_traits_unsigned_int.copy, char_traits_unsigned_int.sizeof_char_type,
        memcpy] at hr
      split_ifs at hr with hdis
      have hr' := (Option.some.inj hr).symm
      subst hr'
      have hno : ¬ (dest + 0 ≤ a ∧ a < dest + n * 4 % 2 ^ SIZE_BITS) := by omega
      simp only [memcpy_loop_apply dest src _ hdis _ mem 0 a (Nat.zero_add _), hno, if_false]
  · intro hdis
    simp only [char_traits_unsigned_int.index,
      char_traits_unsigned_int.sizeof_char_type] at hdis
    have hdis' : dest + n * 4 % 2 ^ SIZE_BITS ≤ src ∨ src + n * 4 % 2 ^ SIZE_BITS ≤ dest := by
      omega
    refine ⟨(memcpy_loop dest src mem 0 (n * 4 % 2 ^ SIZE_BITS), dest), ?_⟩
    simp only [char_traits_unsigned_int.copy, char_traits_unsigned_int.sizeof_char_type,
      memcpy, hdis', if_true]
  · have h0 : dest + 0 ≤ src ∨ src + 0 ≤ dest := by omega
    simp only [char_traits_unsigned_int.copy, Nat.zero_mul, Nat.zero_mod, memcpy, h0,
      if_true, memcpy_loop]

/-- Witness of C12: two units written at address 8 (filled with 513, moved or
copied from address 0); the byte at address 3 is outside the destination range
in both specialisations. -/
theorem writes_stay_in_destination_witness :
    ((3 < 8 ∨ char_traits_unsigned_short.index 8 2 ≤ 3) ∧
      (char_traits_unsigned_short.index 8 2 ≤ 0 ∨ char_traits_unsigned_short.index 0 2 ≤ 8) ∧
      (3 < 8 ∨ char_traits_unsigned_int.index 8 2 ≤ 3) ∧
      (char_traits_unsigned_int.index 8 2 ≤ 0 ∨ char_traits_unsigned_int.index 0 2 ≤ 8)) ∧
    ((char_traits_unsigned_short.assign (fun x => x + 1) 8 2 513).1 3 = 4 ∧
      (char_traits_unsigned_short.move (fun x => x + 1) 8 0 2).1 3 = 4 ∧
      ∃ r, char_traits_unsigned_short.copy (fun x => x + 1) 8 0 2 = some r ∧ r.1 3 = 4) ∧
    ((char_traits_unsigned_int.assign (fun x => x + 1) 8 2 513).1 3 = 4 ∧
      (char_traits_unsigned_int.move (fun x => x + 1) 8 0 2).1 3 = 4 ∧
      ∃ r, char_traits_unsigned_int.copy (fun x => x + 1) 8 0 2 = some r ∧ r.1 3 = 4) := by
  have h := writes_stay_in_destination (fun x => x + 1) 8 0 2 513 3
  have hs := h.1.1 (by decide)
  have hi := h.2.1 (by decide)
  obtain ⟨rs, hrs⟩ := h.1.2.1 (by decide)
  obtain ⟨ri, hri⟩ := h.2.2.1 (by decide)
  exact ⟨⟨by decide, by decide, by decide, by decide⟩,
    ⟨hs.1, hs.2.1, rs, hrs, hs.2.2 rs hrs⟩, ⟨hi.1, hi.2.1, ri, hri, hi.2.2 ri hri⟩⟩

/-- C13: the two specialisations have the same contract.  On the same buffers
(in particular on buffers whose units are all below `2 ^ 16`, the ones a 16-bit
buffer can hold) the 16-bit and the 32-bit versions of `compare`, `length` and
`find` return the same results, and for all integer values the two versions of
`eof`, `eq_int_type` and `not_eof` return the same results. -/
theorem specialisations_agree (s1 s2 s : Buf) (n v fuel i j : Nat) :
    char_traits_unsigned_short.compare s1 s2 n = char_traits_unsigned_int.compare s1 s2 n ∧
    char_traits_unsigned_short.length s fuel = char_traits_unsigned_int.length s fuel ∧
    char_traits_unsigned_short.find s n v = char_traits_unsigned_int.find s n v ∧
    char_traits_unsigned_short.eof = char_traits_unsigned_int.eof ∧
    char_traits_unsigned_short.eq_int_type i j = char_traits_unsigned_int.eq_int_type i j ∧
    char_traits_unsigned_short.not_eof i = char_traits_unsigned_int.not_eof i := by
  refine ⟨?_, ?_, ?_, rfl, rfl, ?_⟩
  · exact (compare_loop_int_eq_short s1 s2 n 0).symm
  · exact (length_loop_int_eq_short s fuel 0).symm
  · exact (find_loop_int_eq_short s v n 0).symm
  · simp only [char_traits_unsigned_short.not_eof, char_traits_unsigned_int.not_eof,
      char_traits_unsigned_short.eq_int_type, char_traits_unsigned_int.eq_int_type,
      eof_short_value, eof_int_value]

/-- C14: in both specialisations, `lt(a, b)` holds exactly when `a < b` and
`eq(a, b)` exactly when `a = b`, so exactly one of `lt(a, b)`, `eq(a, b)`,
`lt(b, a)` holds. -/
theorem lt_eq_spec (a b : Nat) :
    ((char_traits_unsigned_short.lt a b = true ↔ a < b) ∧
      (char_traits_unsigned_short.eq a b = true ↔ a = b) ∧
      (char_traits_unsigned_short.lt a b = true ∨ char_traits_unsigned_short.eq a b = true ∨
        char_traits_unsigned_short.lt b a = true) ∧
      ¬ (char_traits_unsigned_short.lt a b = true ∧ char_traits_unsigned_short.eq a b = true) ∧
      ¬ (char_traits_unsigned_short.lt a b = true ∧ char_traits_unsigned_short.lt b a = true) ∧
      ¬ (char_traits_unsigned_short.eq a b = true ∧ char_traits_unsigned_short.lt b a = true)) ∧
    ((char_traits_unsigned_int.lt a b = true ↔ a < b) ∧
      (char_traits_unsigned_int.eq a b = true ↔ a = b) ∧
      (char_traits_unsigned_int.lt a b = true ∨ char_traits_unsigned_int.eq a b = true ∨
        char_traits_unsigned_int.lt b a = true) ∧
      ¬ (char_traits_unsigned_int.lt a b = true ∧ char_traits_unsigned_int.eq a b = true) ∧
      ¬ (char_traits_unsigned_int.lt a b = true ∧ char_traits_unsigned_int.lt b a = true) ∧
      ¬ (char_traits_unsigned_int.eq a b = true ∧ char_traits_unsigned_int.lt b a = true)) := by
  refine ⟨⟨?_, ?_, ?_, ?_, ?_, ?_⟩, ⟨?_, ?_, ?_, ?_, ?_, ?_⟩⟩ <;>
    simp only [char_traits_unsigned_short.lt, char_traits_unsigned_short.eq,
      char_traits_unsigned_int.lt, char_traits_unsigned_int.eq, decide_eq_true_eq,
      beq_iff_eq] <;>
    omega

/-- C15: in both specialisations, `compare(s1, s2, n)` is -1, 0 or 1, and it is
0 exactly when `s1[i] = s2[i]` for every `i < n`. -/
theorem compare_values (s1 s2 : Buf) (n : Nat) :
    ((char_traits_unsigned_short.compare s1 s2 n = -1 ∨
        char_traits_unsigned_short.compare s1 s2 n = 0 ∨
        char_traits_unsigned_short.compare s1 s2 n = 1) ∧
      (char_traits_unsigned_short.compare s1 s2 n = 0 ↔ ∀ i, i < n → s1 i = s2 i)) ∧
    ((char_traits_unsigned_int.compare s1 s2 n = -1 ∨
        char_traits_unsigned_int.compare s1 s2 n = 0 ∨
        char_traits_unsigned_int.compare s1 s2 n = 1) ∧
      (char_traits_unsigned_int.compare s1 s2 n = 0 ↔ ∀ i, i < n → s1 i = s2 i)) := by
  have hv := compare_loop_values s1 s2 n 0
  have hz : char_traits_unsigned_short.compare_loop s1 s2 0 n = 0 ↔
      ∀ i, i < n → s1 i = s2 i := by
    rw [compare_loop_eq_zero_iff]
    constructor
    · intro h i hi; exact h i (Nat.zero_le i) (by omega)
    · intro h j _ hj; exact h j (by omega)
  refine ⟨⟨hv, hz⟩, ?_⟩
  unfold char_traits_unsigned_int.compare
  rw [compare_loop_int_eq_short]
  exact ⟨hv, hz⟩

/-- C16: in both specialisations, `compare(s2, s1, n)` is the negation of
`compare(s1, s2, n)`. -/
theorem compare_antisymmetric (s1 s2 : Buf) (n : Nat) :
    char_traits_unsigned_short.compare s2 s1 n = - char_traits_unsigned_short.compare s1 s2 n ∧
    char_traits_unsigned_int.compare s2 s1 n = - char_traits_unsigned_int.compare s1 s2 n := by
  have h := compare_loop_swap s1 s2 n 0
  refine ⟨h, ?_⟩
  unfold char_traits_unsigned_int.compare
  rw [compare_loop_int_eq_short, compare_loop_int_eq_short]; exact h

/-- C17: in both specialisations `not_eof` never returns the end-of-sequence
value: `eq_int_type(not_eof(i), eof())` is false for every integer value `i`,
`eof()` being `2 ^ 32 - 1`, which is not 0. -/
theorem not_eof_never_eof (i : Nat) :
    (char_traits_unsigned_short.eq_int_type (char_traits_unsigned_short.not_eof i)
        char_traits_unsigned_short.eof = false ∧
      char_traits_unsigned_short.eof = 2 ^ 32 - 1 ∧ char_traits_unsigned_short.eof ≠ 0) ∧
    (char_traits_unsigned_int.eq_int_type (char_traits_unsigned_int.not_eof i)
        char_traits_unsigned_int.eof = false ∧
      char_traits_unsigned_int.eof = 2 ^ 32 - 1 ∧ char_traits_unsigned_int.eof ≠ 0) := by
  refine ⟨⟨?_, by decide, by decide⟩, ⟨?_, by decide, by decide⟩⟩
  · simp only [char_traits_unsigned_short.not_eof, char_traits_unsigned_short.eq_int_type,
      eof_short_value]
    by_cases h : i = 4294967295
    · simp [h]
    · simp [h]
  · simp only [char_traits_unsigned_int.not_eof, char_traits_unsigned_int.eq_int_type,
      eof_int_value]
    by_cases h : i = 4294967295
    · simp [h]
    · simp [h]

/-- C18: in the 16-bit specialisation `to_int_type(to_char_type(i))` is
`i mod 2 ^ 16`, so it equals `i` exactly when `i < 2 ^ 16`; `to_char_type(eof())`
is the unit `0xFFFF` and converting it back does not give `eof()`.  In the
32-bit specialisation `to_int_type(to_char_type(i))` is `i`. -/
theorem to_int_type_to_char_type (i : Nat) :
    (char_traits_unsigned_short.to_int_type (char_traits_unsigned_short.to_char_type i)
        = i % 2 ^ 16 ∧
      (char_traits_unsigned_short.to_int_type (char_traits_unsigned_short.to_char_type i) = i ↔
        i < 2 ^ 16) ∧
      char_traits_unsigned_short.to_char_type char_traits_unsigned_short.eof = 65535 ∧
      char_traits_unsigned_short.to_int_type
        (char_traits_unsigned_short.to_char_type char_traits_unsigned_short.eof)
        ≠ char_traits_unsigned_short.eof) ∧
    char_traits_unsigned_int.to_int_type (char_traits_unsigned_int.to_char_type i) = i := by
  refine ⟨⟨?_, ?_, by decide, by decide⟩, rfl⟩
  · simp only [char_traits_unsigned_short.to_int_type, char_traits_unsigned_short.to_char_type,
      char_traits_unsigned_short.INT_BITS, char_traits_unsigned_short.CHAR_BITS]
    omega
  · simp only [char_traits_unsigned_short.to_int_type, char_traits_unsigned_short.to_char_type,
      char_traits_unsigned_short.INT_BITS, char_traits_unsigned_short.CHAR_BITS]
    omega

/-- C19: `length` and `find` agree on the terminator.  In both specialisations,
for a buffer that holds a zero unit, `length` returns a value `len` (for every
bound on its loop above `len`), `find(s, len, 0)` is the null pointer and
`find(s, len + 1, 0)` is the pointer to position `len`. -/
theorem length_find_terminator (s : Buf) (hz : ∃ k, s k = 0) :
    ∃ len,
      (∀ fuel, len < fuel →
        char_traits_unsigned_short.length s fuel = some len ∧
        char_traits_unsigned_int.length s fuel = some len) ∧
      (char_traits_unsigned_short.find s len 0 = none ∧
        char_traits_unsigned_short.find s (len + 1) 0 = some len) ∧
      (char_traits_unsigned_int.find s len 0 = none ∧
        char_traits_unsigned_int.find s (len + 1) 0 = some len) := by
  have hk : s (Nat.find hz) = 0 := Nat.find_spec hz
  have hmin : ∀ j, j < Nat.find hz → s j ≠ 0 := fun j hj => Nat.find_min hz hj
  have hlen : ∀ fuel, Nat.find hz < fuel →
      char_traits_unsigned_short.length_loop s 0 fuel = some (Nat.find hz) := by
    intro fuel hf
    have h := length_loop_first_zero s (Nat.find hz) 0 fuel hf
      (fun j _ h2 => hmin j (by omega)) (by simpa using hk)
    simpa using h
  have hnone : char_traits_unsigned_short.find_loop s 0 0 (Nat.find hz) = none :=
    find_loop_absent s 0 (Nat.find hz) 0 (fun j _ h2 => hmin j (by omega))
  have hsome : char_traits_unsigned_short.find_loop s 0 0 (Nat.find hz + 1)
      = some (Nat.find hz) := by
    have h := find_loop_first s 0 (Nat.find hz) 0 (Nat.find hz + 1) (by omega)
      (fun j _ h2 => hmin j (by omega)) (by simpa using hk)
    simpa using h
  refine ⟨Nat.find hz, ?_, ⟨hnone, hsome⟩, ?_, ?_⟩
  · intro fuel hf
    refine ⟨hlen fuel hf, ?_⟩
    unfold char_traits_unsigned_int.length
    rw [length_loop_int_eq_short]; exact hlen fuel hf
  · unfold char_traits_unsigned_int.find
    rw [find_loop_int_eq_short]; exact hnone
  · unfold char_traits_unsigned_int.find
    rw [find_loop_int_eq_short]; exact hsome

/-- Witness of C19 on `[5,9,0,7]`, which holds a zero unit at index 2. -/
theorem length_find_terminator_witness :
    (∃ k, buf_of [5, 9, 0, 7] k = 0) ∧
    ∃ len,
      (∀ fuel, len < fuel →
        char_traits_unsigned_short.length (buf_of [5, 9, 0, 7]) fuel = some len ∧
        char_traits_unsigned_int.length (buf_of [5, 9, 0, 7]) fuel = some len) ∧
      (char_traits_unsigned_short.find (buf_of [5, 9, 0, 7]) len 0 = none ∧
        char_traits_unsigned_short.find (buf_of [5, 9, 0, 7]) (len + 1) 0 = some len) ∧
      (char_traits_unsigned_int.find (buf_of [5, 9, 0, 7]) len 0 = none ∧
        char_traits_unsigned_int.find (buf_of [5, 9, 0, 7]) (len + 1) 0 = some len) :=
  ⟨⟨2, by decide⟩, length_find_terminator (buf_of [5, 9, 0, 7]) ⟨2, by decide⟩⟩

end CharTraitsPatch
